import Mathlib

set_option maxHeartbeats 1000000

/-!
Verification development for EDACC, a tool that tails Elite Dangerous
journal files and announces valuable prospected asteroids.  The repository
contains two variant implementations of the same pipeline:
app.py (class EliteAssistant) and EDAT.py (class EliteAsteroidTracker).
Both are embedded below; numeric journal values are modelled as rationals,
decoded text as lists of characters, and the fallible JSON decode of a line
as an explicit Option-typed parameter.
-/

namespace EDACC

/-! Python numeric helpers used by both variants. -/

/-- Python int(x) applied to a real number: truncation toward zero
(app.py line 249 and line 292 use int(float(proportion))). -/
def pyTrunc (q : Rat) : Int :=
  if 0 ≤ q then q.floor else -((-q).floor)

/-- Python round(x) to the nearest integer, ties going to the even integer
(EDAT.py line 283 uses round(proportion)).  The fractional part q - floor q
equals (q.num - floor q * q.den) / q.den, so it is below, above or equal to
one half according as twice its numerator compares with the denominator;
the comparison is phrased on integers so that it evaluates by reduction. -/
def pyRound (q : Rat) : Int :=
  let f := q.floor
  let twiceFrac := 2 * q.num - 2 * f * (q.den : Int)
  if twiceFrac < (q.den : Int) then f
  else if (q.den : Int) < twiceFrac then f + 1
  else if f % 2 = 0 then f else f + 1

/-- Python dict.get on a string-keyed mapping of numeric thresholds
(models self.mining_thresholds.get(name) and the
name in targets / targets[name] pair of accesses in EDAT.py). -/
def dictGet (d : List (String × Rat)) (k : String) : Option Rat :=
  (d.find? (fun p => p.1 == k)).map (fun p => p.2)

/-! File cursor state of the two variants. -/

/-- State of app.py EliteAssistant relevant to journal tracking:
current_file, last_position, last_line (app.py lines 150-152). -/
structure AppCursor where
  currentFile : Option String
  lastPosition : Nat
  lastLine : Option String
deriving DecidableEq

/-- app.py read_new_lines lines 186-194: when the resolved latest journal
differs from current_file, switch to it and set last_position to the size
of the new file (the except branch that sets it to 0 on an OS error is
outside this model, which assumes getsize succeeds); otherwise no state
change.  Note that last_line is not touched on a switch. -/
def appSwitchJournal (c : AppCursor) (latest : String) (size : Nat) : AppCursor :=
  if some latest ≠ c.currentFile then
    { currentFile := some latest, lastPosition := size, lastLine := c.lastLine }
  else c

/-- State of EDAT.py EliteAsteroidTracker relevant to journal tracking:
current_journal_path, last_position, last_line (EDAT.py lines 65-67). -/
structure EdatCursor where
  currentJournalPath : Option String
  lastPosition : Nat
  lastLine : List Char
deriving DecidableEq

/-- EDAT.py find_latest_journal lines 143-149: when the resolved latest
journal differs from current_journal_path, switch to it and reset
last_position to 0 and last_line to the empty string; otherwise no state
change. -/
def edatOnResolved (c : EdatCursor) (latest : String) : EdatCursor :=
  if c.currentJournalPath ≠ some latest then
    { currentJournalPath := some latest, lastPosition := 0, lastLine := [] }
  else c

/-! Event data.  A decoded journal record is modelled as a structure of
optional fields; dict.get defaults are applied at the use sites, exactly
where the Python code applies them. -/

/-- One element of the Materials array: mat.get("Name") / mat.get("Proportion"). -/
structure Material where
  name : Option String
  proportion : Option Rat
deriving DecidableEq

/-- A decoded ProspectedAsteroid record (fields read by either variant). -/
structure MiningEntry where
  event : Option String
  timestamp : Option String
  remaining : Option Rat
  materials : Option (List Material)
  motherlodeMaterial : Option String
  contentLocalised : Option String
deriving DecidableEq

/-- A row of EDAT.py mining_statistics.csv (record_asteroid, lines 294-307). -/
structure StatRecord where
  timestamp : String
  material : String
  proportion : Rat
  motherlode : Bool
  contentType : String
  remaining : Rat
deriving DecidableEq

/-- A row of app.py mining_data.csv (MiningData.add_material, lines 110-117). -/
structure AppRecord where
  timestamp : String
  material : String
  proportion : Int
deriving DecidableEq

/-! EDAT.py process_asteroid (lines 249-292). -/

/-- The announcement string of EDAT.py line 284: the displayed proportion is
round(proportion), the nearest integer. -/
def edatAnn (m : Material) : String :=
  let name := m.name.getD ""
  let r := pyRound (m.proportion.getD 0)
  s!"{name} asteroid found with {r} percent content"

/-- The statistics row recorded by EDAT.py lines 273-280: the stored
proportion is the raw (unrounded) value. -/
def edatRec (ts : String) (rem : Rat) (ml : Option String) (cl : String)
    (m : Material) : StatRecord :=
  let name := m.name.getD ""
  { timestamp := ts, material := name, proportion := m.proportion.getD 0,
    motherlode := ml == some name, contentType := cl, remaining := rem }

/-- The per-material qualification test of EDAT.py line 269:
material_name in target_materials and proportion >= its threshold. -/
def edatQualB (targets : List (String × Rat)) (m : Material) : Bool :=
  match dictGet targets (m.name.getD "") with
  | some thr => decide (m.proportion.getD 0 ≥ thr)
  | none => false

/-- The material loop of EDAT.py lines 264-285: scan the Materials list in
order; on the first material whose name is a configured target and whose
proportion meets the threshold, record one row, produce one announcement,
and break. -/
def edatScan (targets : List (String × Rat)) (ts : String) (rem : Rat)
    (ml : Option String) (cl : String) : List Material → List String × List StatRecord
  | [] => ([], [])
  | m :: ms =>
    match dictGet targets (m.name.getD "") with
    | some thr =>
      if m.proportion.getD 0 ≥ thr then ([edatAnn m], [edatRec ts rem ml cl m])
      else edatScan targets ts rem ml cl ms
    | none => edatScan targets ts rem ml cl ms

/-- EDAT.py process_asteroid lines 249-287: require event ProspectedAsteroid,
require Remaining (default 0) to be at least 100, then scan the materials.
The result is the pair (spoken announcements, recorded statistics rows);
the parameter now stands for datetime.now().isoformat(). -/
def edatProcessAsteroid (targets : List (String × Rat)) (now : String)
    (e : MiningEntry) : List String × List StatRecord :=
  if e.event ≠ some "ProspectedAsteroid" then ([], [])
  else
    let remaining := e.remaining.getD 0
    if remaining < 100 then ([], [])
    else
      edatScan targets (e.timestamp.getD now) remaining e.motherlodeMaterial
        (e.contentLocalised.getD "Unknown") (e.materials.getD [])

/-! app.py handle_mining (lines 216-313). -/

/-- The announcement string of app.py line 257: the displayed value is
percent = int(float(proportion)), truncation toward zero. -/
def appAnn (m : Material) : String :=
  let name := m.name.getD ""
  let p := pyTrunc (m.proportion.getD 0)
  s!"{name} found at {p} percent"

/-- The dataset row of app.py line 262: the stored proportion is the same
truncated integer percent, not the raw value. -/
def appRec (ts : String) (m : Material) : AppRecord :=
  { timestamp := ts, material := m.name.getD "",
    proportion := pyTrunc (m.proportion.getD 0) }

/-- The per-material announcement test of app.py lines 255-256: a nonempty
name, a configured threshold, and truncated percent >= threshold. -/
def appQualB (th : List (String × Rat)) (m : Material) : Bool :=
  (!(m.name.getD "" == "")) &&
    (match dictGet th (m.name.getD "") with
     | some thr => decide ((pyTrunc (m.proportion.getD 0) : Rat) ≥ thr)
     | none => false)

/-- The material loop of app.py lines 241-262 (strict JSON path): every
material with a nonempty name is recorded; every one that additionally has
a configured threshold met by its truncated percent is announced.  There is
no break: the loop continues past a qualifying material. -/
def appProcessMaterials (th : List (String × Rat)) (ts : String) :
    List Material → List String × List AppRecord
  | [] => ([], [])
  | m :: ms =>
    let rest := appProcessMaterials th ts ms
    if m.name.getD "" == "" then rest
    else
      let anns : List String :=
        match dictGet th (m.name.getD "") with
        | some thr =>
          if (pyTrunc (m.proportion.getD 0) : Rat) ≥ thr then [appAnn m] else []
        | none => []
      (anns ++ rest.1, appRec ts m :: rest.2)

/-- The material loop of app.py lines 284-305 (regex fallback path),
translated separately from its own source lines; the body is the same
as the strict path. -/
def appProcessMaterialsFB (th : List (String × Rat)) (ts : String) :
    List Material → List String × List AppRecord
  | [] => ([], [])
  | m :: ms =>
    let rest := appProcessMaterialsFB th ts ms
    if m.name.getD "" == "" then rest
    else
      let anns : List String :=
        match dictGet th (m.name.getD "") with
        | some thr =>
          if (pyTrunc (m.proportion.getD 0) : Rat) ≥ thr then [appAnn m] else []
        | none => []
      (anns ++ rest.1, appRec ts m :: rest.2)

/-- app.py handle_mining strict path, lines 222-264: after a successful
JSON decode, re-check the event discriminator, default Materials to [] and
timestamp to now, return False on an empty Materials list, else process the
materials and return True.  Result: (announcements, records, return value). -/
def appStrictEntry (th : List (String × Rat)) (now : String) (e : MiningEntry) :
    List String × List AppRecord × Bool :=
  if e.event ≠ some "ProspectedAsteroid" then ([], [], false)
  else
    let materials := e.materials.getD []
    let ts := e.timestamp.getD now
    if materials.isEmpty then ([], [], false)
    else
      ((appProcessMaterials th ts materials).1, (appProcessMaterials th ts materials).2, true)

/-- app.py handle_mining fallback path, lines 266-307: given the materials
array recovered by the Materials regex and the timestamp (regex capture or
now), process the materials and return True.  Unlike the strict path there
is no emptiness check on the list. -/
def appFallbackEntry (th : List (String × Rat)) (ts : String)
    (mats : List Material) : List String × List AppRecord × Bool :=
  ((appProcessMaterialsFB th ts mats).1, (appProcessMaterialsFB th ts mats).2, true)

/-! Raw-line guards.  Python substring containment (the in operator). -/

/-- Python substring test: pat in s. -/
def containsTok (pat : List Char) : List Char → Bool
  | [] => pat.isEmpty
  | c :: cs => pat.isPrefixOf (c :: cs) || containsTok pat cs

/-- The exact discriminator substring required by app.py line 218. -/
def minePat : List Char := "\"event\":\"ProspectedAsteroid\"".toList

/-- The exact discriminator substring required by app.py line 317. -/
def textPat : List Char := "\"event\":\"ReceiveText\"".toList

/-- app.py handle_mining, lines 216-313, as a function of the raw line.
The outcome of json.loads is the parsed parameter (none models
JSONDecodeError); the outcome of the Materials regex plus timestamp regex
and the json.loads of the captured array is the fb parameter (none models
a missing Materials match or an unparsable capture). -/
def appHandleMining (th : List (String × Rat)) (now : String) (line : List Char)
    (parsed : Option MiningEntry) (fb : Option (List Material × Option String)) :
    List String × List AppRecord × Bool :=
  if containsTok minePat line then
    match parsed with
    | some e => appStrictEntry th now e
    | none =>
      match fb with
      | some (mats, tsOpt) => appFallbackEntry th (tsOpt.getD now) mats
      | none => ([], [], false)
  else ([], [], false)

/-! app.py handle_message (lines 315-375). -/

/-- Python str.lower (ASCII model), written on the character list so that
it evaluates by reduction. -/
def pyLower (s : String) : String := ⟨s.data.map Char.toLower⟩

/-- Python substring test on strings. -/
def containsStr (hay pat : String) : Bool := containsTok pat.toList hay.toList

/-- The hostile-keyword list of app.py line 337. -/
def pirateWords : List String := ["cargo", "surrender", "let me see", "hand over", "pirate"]

/-- A decoded ReceiveText record (fields read by handle_message). -/
structure ChatEntry where
  event : Option String
  fromName : Option String
  message : Option String
  channel : Option String
deriving DecidableEq

/-- app.py handle_message strict path, lines 320-352: squadron, npc (with
pirate-keyword wording) and player channels announce; any other channel
falls through and the handler returns False. -/
def appMessageStrict (e : ChatEntry) : List String × Bool :=
  if e.event ≠ some "ReceiveText" then ([], false)
  else
    let sender := e.fromName.getD "Unknown"
    let message := e.message.getD ""
    let channel := pyLower (e.channel.getD "")
    if channel = "squadron" then
      ([s!"message from squadron member {sender} saying: {message}"], true)
    else if channel = "npc" then
      let msgLower := pyLower message
      if pirateWords.any (fun w => containsStr msgLower w) then
        ([s!"NPC PIRATE MESSAGE: {message}"], true)
      else
        ([s!"NPC message: {message}"], true)
    else if channel = "player" then
      ([s!"player message from {sender} saying: {message}"], true)
    else ([], false)

/-- app.py handle_message fallback path, lines 354-371: given the three
regex captures, only the squadron channel is handled; the branch for other
channels is an unimplemented comment in the source, so every other channel
announces nothing and returns False. -/
def appMessageFallback (sender message channelRaw : String) : List String × Bool :=
  let channel := pyLower channelRaw
  if channel = "squadron" then
    ([s!"message from squadron member {sender} saying: {message}"], true)
  else ([], false)

/-- app.py handle_message, lines 315-375, as a function of the raw line;
parsed models json.loads, fb models the three regex captures (none when not
all three matched). -/
def appHandleMessage (line : List Char) (parsed : Option ChatEntry)
    (fb : Option (String × String × String)) : List String × Bool :=
  if containsTok textPat line then
    match parsed with
    | some e => appMessageStrict e
    | none =>
      match fb with
      | some (s, m, c) => appMessageFallback s m c
      | none => ([], false)
  else ([], false)

/-! app.py SimpleTextToSpeech (lines 57-95): a shared FIFO list guarded by a
lock; speak appends at the tail, the single worker thread pops index 0 and
performs the blocking speech call.  Modelled as a transition system whose
trace is an arbitrary interleaving of producer and consumer steps. -/

/-- Queue-and-worker state: the pending queue and the texts already handed
to the speech engine, in hand-off order. -/
structure QState where
  queue : List String
  spoken : List String
deriving DecidableEq

/-- One interleaving step: either the producer enqueues a text
(speak, line 71) or the worker runs one iteration (lines 76-95). -/
inductive QEvent where
  | enq : String → QEvent
  | deq : QEvent
deriving DecidableEq

/-- Effect of one step.  A worker iteration on an empty queue sleeps and
changes nothing; otherwise it pops the head (queue.pop(0), line 80) and
speaks it. -/
def qStep (s : QState) : QEvent → QState
  | QEvent.enq t => { queue := s.queue ++ [t], spoken := s.spoken }
  | QEvent.deq =>
    match s.queue with
    | [] => s
    | t :: rest => { queue := rest, spoken := s.spoken ++ [t] }

/-- Run a whole interleaving. -/
def qRun (s : QState) (tr : List QEvent) : QState := tr.foldl qStep s

/-- The texts enqueued along a trace, in order. -/
def enqueuedOf : List QEvent → List String
  | [] => []
  | QEvent.enq t :: tr => t :: enqueuedOf tr
  | QEvent.deq :: tr => enqueuedOf tr

/-! EDAT.py speak_text (lines 228-247): no queue; each announcement spawns
a fresh thread that calls the shared engine.  Modelled as a transition
system in which a scheduler step may run any of the currently spawned
threads, in any order. -/

/-- Thread-per-announcement state: spawned-but-not-yet-run announcement
threads (in spawn order) and the texts already spoken. -/
structure TState where
  pending : List String
  spoken : List String
deriving DecidableEq

/-- One step: speak_text spawns a thread for a text, or the scheduler runs
the i-th currently pending thread to completion. -/
inductive TEvent where
  | spawn : String → TEvent
  | run : Nat → TEvent
deriving DecidableEq

/-- Effect of one step; running an out-of-range index changes nothing. -/
def tStep (s : TState) : TEvent → TState
  | TEvent.spawn t => { pending := s.pending ++ [t], spoken := s.spoken }
  | TEvent.run i =>
    match s.pending[i]? with
    | none => s
    | some t => { pending := s.pending.eraseIdx i, spoken := s.spoken ++ [t] }

/-- Run a whole schedule. -/
def tRun (s : TState) (tr : List TEvent) : TState := tr.foldl tStep s

/-- The texts spawned along a schedule, in order. -/
def spawnedOf : List TEvent → List String
  | [] => []
  | TEvent.spawn t :: tr => t :: spawnedOf tr
  | TEvent.run _ :: tr => spawnedOf tr

/-! app.py read_new_lines text processing (lines 196-211): readlines from
the saved offset, then strip each line, drop empty lines and lines equal to
the remembered last emitted line. -/

/-- Python str.isspace characters relevant to str.strip (ASCII model). -/
def isPySpace (c : Char) : Bool :=
  c = ' ' || c = '\t' || c = '\n' || c = '\r' || c = '\x0b' || c = '\x0c'

/-- Python str.strip(). -/
def pyStrip (s : List Char) : List Char :=
  ((s.dropWhile isPySpace).reverse.dropWhile isPySpace).reverse

/-- Python file.readlines on the newly appended text: split after each
newline, keeping terminators, and keep a trailing unterminated segment as a
final line (it is not buffered for later). -/
def pyReadlines : List Char → List (List Char)
  | [] => []
  | '\n' :: cs => ['\n'] :: pyReadlines cs
  | c :: cs =>
    match pyReadlines cs with
    | [] => [[c]]
    | l :: ls => (c :: l) :: ls

/-- The loop body of app.py lines 204-209 for one raw line: strip it, drop
it if empty or equal to last_line, else remember and emit it.
Result: (emitted line if any, new last_line). -/
def appFilterStep (st : Option (List Char)) (raw : List Char) :
    Option (List Char) × Option (List Char) :=
  let line := pyStrip raw
  if line = [] then (none, st)
  else if some line = st then (none, st)
  else (some line, some line)

/-- The whole filter loop of app.py lines 203-211 over the raw lines of one
read, threading last_line.  Result: (emitted lines, new last_line). -/
def appRunLines (st : Option (List Char)) :
    List (List Char) → List (List Char) × Option (List Char)
  | [] => ([], st)
  | r :: rs =>
    let step := appFilterStep st r
    let rest := appRunLines step.2 rs
    (step.1.toList ++ rest.1, rest.2)

/-- One read_new_lines call on the text newly appended since the previous
call. -/
def appReadChunk (st : Option (List Char)) (content : List Char) :
    List (List Char) × Option (List Char) :=
  appRunLines st (pyReadlines content)

/-- A sequence of read_new_lines calls, each seeing one appended chunk;
last_line persists across calls (it is instance state). -/
def appReadAll (st : Option (List Char)) :
    List (List Char) → List (List Char) × Option (List Char)
  | [] => ([], st)
  | c :: cs =>
    let one := appReadChunk st c
    let rest := appReadAll one.2 cs
    (one.1 ++ rest.1, rest.2)

/-! EDAT.py read_new_journal_entries line assembly (lines 194-210):
splitlines on the newly read text, prefix the buffered fragment to the
first line, and if the text does not end in a newline pop the last line
back into the fragment buffer. -/

/-- Python str.splitlines restricted to the terminators that can occur in
the journal text ('\n', '\r' and the pair '\r''\n'); a trailing
unterminated segment is returned as a final line. -/
def pySplitlines : List Char → List (List Char)
  | [] => []
  | '\r' :: '\n' :: cs => [] :: pySplitlines cs
  | '\r' :: cs => [] :: pySplitlines cs
  | '\n' :: cs => [] :: pySplitlines cs
  | c :: cs =>
    match pySplitlines cs with
    | [] => [[c]]
    | l :: ls => (c :: l) :: ls

/-- EDAT.py lines 196-210 for one read: split the new content into lines,
prefix the buffered last_line to the first one (prefixing the empty buffer
is the identity, so the if guard of line 203 is dropped), and when the
content does not end with a newline move the final line into the buffer.
Result: (complete lines of this read, new last_line buffer). -/
def edatAbsorb (lastLine content : List Char) : List (List Char) × List Char :=
  match pySplitlines content with
  | [] => ([], lastLine)
  | l :: ls =>
    let all := (lastLine ++ l) :: ls
    if content.getLast? = some '\n' then (all, [])
    else (all.dropLast, all.getLast?.getD [])

/-- A sequence of reads, each absorbing one appended chunk and threading the
fragment buffer.  Result: (all complete lines in order, final buffer). -/
def edatAbsorbAll (st : List Char) :
    List (List Char) → List (List Char) × List Char
  | [] => ([], st)
  | c :: cs =>
    let one := edatAbsorb st c
    let rest := edatAbsorbAll one.2 cs
    (one.1 ++ rest.1, rest.2)

/-! Reference splitter for the split-invariance proof: split a
newline-terminated text into its complete lines and trailing fragment. -/

/-- Complete newline-terminated lines and trailing fragment of a text. -/
def nlSplit : List Char → List (List Char) × List Char
  | [] => ([], [])
  | c :: cs =>
    if c = '\n' then ([] :: (nlSplit cs).1, (nlSplit cs).2)
    else
      match nlSplit cs with
      | ([], f) => ([], c :: f)
      | (l :: ls, f) => ((c :: l) :: ls, f)

/-- Re-attach a newline terminator to each line and concatenate. -/
def joinNl (L : List (List Char)) : List Char :=
  L.foldr (fun l acc => l ++ '\n' :: acc) []

/-- Concatenation of a list of chunks. -/
def catChunks (cs : List (List Char)) : List Char :=
  cs.foldr (fun c acc => c ++ acc) []

/-! Helper lemmas shared by several claims. -/

/-- Characterization of the EDAT.py material loop: it records and announces
exactly the first qualifying material, via List.find?. -/
theorem edatScan_eq_find (targets : List (String × Rat)) (ts : String) (rem : Rat)
    (ml : Option String) (cl : String) :
    ∀ ms : List Material,
      edatScan targets ts rem ml cl ms =
        (match ms.find? (edatQualB targets) with
         | none => ([], [])
         | some m => ([edatAnn m], [edatRec ts rem ml cl m]))
  | [] => by simp [edatScan]
  | m :: ms => by
    have ih := edatScan_eq_find targets ts rem ml cl ms
    by_cases hq : edatQualB targets m = true
    · rw [List.find?_cons_of_pos _ hq]
      unfold edatQualB at hq
      rcases h : dictGet targets (m.name.getD "") with _ | thr
      · rw [h] at hq; simp at hq
      · rw [h] at hq
        simp only [decide_eq_true_eq] at hq
        simp [edatScan, h, hq]
    · rw [List.find?_cons_of_neg _ (by simpa using hq)]
      unfold edatQualB at hq
      rcases h : dictGet targets (m.name.getD "") with _ | thr
      · simp [edatScan, h, ih]
      · rw [h] at hq
        simp only [decide_eq_true_eq] at hq
        simp [edatScan, h, hq, ih]

/-- The strict-path and fallback-path material loops of app.py are the same
function. -/
theorem appPM_eq_FB (th : List (String × Rat)) (ts : String) :
    ∀ ms : List Material, appProcessMaterials th ts ms = appProcessMaterialsFB th ts ms
  | [] => rfl
  | m :: ms => by
    simp only [appProcessMaterials, appProcessMaterialsFB, appPM_eq_FB th ts ms]

/-- Announcements of the app.py material loop: one per qualifying material,
in list order. -/
theorem appPM_anns (th : List (String × Rat)) (ts : String) :
    ∀ ms : List Material,
      (appProcessMaterials th ts ms).1 = (ms.filter (appQualB th)).map appAnn
  | [] => rfl
  | m :: ms => by
    have ih := appPM_anns th ts ms
    by_cases hn : m.name.getD "" = ""
    · have hq : appQualB th m = false := by simp [appQualB, hn]
      simp [appProcessMaterials, hn, List.filter_cons, hq, ih]
    · rcases h : dictGet th (m.name.getD "") with _ | thr
      · have hq : appQualB th m = false := by simp [appQualB, hn, h]
        simp [appProcessMaterials, hn, h, List.filter_cons, hq, ih]
      · by_cases hc : (pyTrunc (m.proportion.getD 0) : Rat) ≥ thr
        · have hq : appQualB th m = true := by simp [appQualB, hn, h, hc]
          simp [appProcessMaterials, hn, h, hc, List.filter_cons, hq, ih]
        · have hq : appQualB th m = false := by simp [appQualB, hn, h, hc]
          simp [appProcessMaterials, hn, h, hc, List.filter_cons, hq, ih]

/-- Records of the app.py material loop: one per material with a nonempty
name, regardless of thresholds. -/
theorem appPM_recs (th : List (String × Rat)) (ts : String) :
    ∀ ms : List Material,
      (appProcessMaterials th ts ms).2 =
        (ms.filter (fun m => !(m.name.getD "" == ""))).map (appRec ts)
  | [] => rfl
  | m :: ms => by
    have ih := appPM_recs th ts ms
    by_cases hn : m.name.getD "" = ""
    · simp [appProcessMaterials, hn, List.filter_cons, ih]
    · rcases h : dictGet th (m.name.getD "") with _ | thr
      · simp [appProcessMaterials, hn, h, List.filter_cons, ih]
      · by_cases hc : (pyTrunc (m.proportion.getD 0) : Rat) ≥ thr
        · simp [appProcessMaterials, hn, h, hc, List.filter_cons, ih]
        · simp [appProcessMaterials, hn, h, hc, List.filter_cons, ih]

/-! Claim theorems. -/

/-- C1 (amended): on resolving a newest journal path different from the
tracked one, app.py sets the offset to the current size of the new file,
while EDAT.py resets the offset to 0 (so content already present in the new
file is replayed); in both variants a resolved path equal to the tracked
path leaves the cursor unchanged. -/
theorem c1_new_session_offset (c : AppCursor) (d : EdatCursor) (latest : String)
    (size : Nat) :
    (some latest ≠ c.currentFile →
      appSwitchJournal c latest size =
        { currentFile := some latest, lastPosition := size, lastLine := c.lastLine }) ∧
    (some latest = c.currentFile → appSwitchJournal c latest size = c) ∧
    (d.currentJournalPath ≠ some latest →
      edatOnResolved d latest =
        { currentJournalPath := some latest, lastPosition := 0, lastLine := [] }) ∧
    (d.currentJournalPath = some latest → edatOnResolved d latest = d) := by
  refine ⟨fun h => ?_, fun h => ?_, fun h => ?_, fun h => ?_⟩ <;>
    simp [appSwitchJournal, edatOnResolved, h]

/-- C1 witness: a concrete rotation in app.py sets the offset to the new
size 100. -/
theorem c1_new_session_offset_witness :
    appSwitchJournal ⟨some "Journal.A.log", 500, none⟩ "Journal.B.log" 100 =
      ⟨some "Journal.B.log", 100, none⟩ :=
  (c1_new_session_offset ⟨some "Journal.A.log", 500, none⟩ ⟨none, 0, []⟩
    "Journal.B.log" 100).1 (by decide)

/-- C1 counterexample: EDAT.py find_latest_journal resets the offset of a
newly resolved journal to 0, not to the current size of the new file (100
here), so the 100 bytes already present would be read and replayed. -/
theorem c1_counterexample :
    (edatOnResolved ⟨some "Journal.A.log", 500, []⟩ "Journal.B.log").lastPosition = 0 ∧
    (0 : Nat) ≠ 100 := by decide

/-- C3: for a ProspectedAsteroid event, the EDAT.py pipeline announces iff
Remaining (default 0) is at least 100 and some material qualifies; the
app.py pipeline ignores the Remaining field entirely and announces iff some
material qualifies. -/
theorem c3_remaining_gate (targets th : List (String × Rat)) (now : String)
    (e : MiningEntry) (he : e.event = some "ProspectedAsteroid") :
    ((edatProcessAsteroid targets now e).1 ≠ [] ↔
      (100 ≤ e.remaining.getD 0 ∧
        ∃ m ∈ e.materials.getD [], edatQualB targets m = true)) ∧
    (∀ r, appStrictEntry th now { e with remaining := r } = appStrictEntry th now e) ∧
    ((appStrictEntry th now e).1 ≠ [] ↔
      ∃ m ∈ e.materials.getD [], appQualB th m = true) := by
  refine ⟨?_, fun r => by cases e; rfl, ?_⟩
  · unfold edatProcessAsteroid
    rw [he, if_neg (by simp)]
    by_cases hr : e.remaining.getD 0 < 100
    · rw [if_pos hr]
      constructor
      · intro hfalse; exact absurd rfl hfalse
      · rintro ⟨h100, -⟩; exact absurd h100 (not_le.mpr hr)
    · rw [if_neg hr, edatScan_eq_find]
      rcases hf : (e.materials.getD []).find? (edatQualB targets) with _ | m
      · rw [List.find?_eq_none] at hf
        constructor
        · intro hfalse; exact absurd rfl hfalse
        · rintro ⟨-, m, hm, hq⟩; exact absurd hq (hf m hm)
      · constructor
        · intro _
          exact ⟨le_of_not_lt hr, m, List.mem_of_find?_eq_some hf, List.find?_some hf⟩
        · intro _; exact List.cons_ne_nil _ _
  · unfold appStrictEntry
    rw [he, if_neg (by simp)]
    by_cases hempty : (e.materials.getD []).isEmpty
    · rw [if_pos hempty]
      rw [List.isEmpty_iff] at hempty
      simp [hempty]
    · rw [if_neg hempty]
      rw [appPM_anns]
      simp only [ne_eq, List.map_eq_nil_iff, List.filter_eq_nil_iff, not_forall,
        Decidable.not_not]
      constructor
      · rintro ⟨m, hm, hq⟩; exact ⟨m, hm, hq⟩
      · rintro ⟨m, hm, hq⟩; exact ⟨m, hm, hq⟩

/-- C3 witness: a fully intact asteroid with 55 percent Platinum and
threshold 50 produces an announcement in EDAT.py. -/
theorem c3_remaining_gate_witness :
    (edatProcessAsteroid [("Platinum", (50 : Rat))] "N"
      ⟨some "ProspectedAsteroid", some "T", some 100,
        some [⟨some "Platinum", some 55⟩], none, none⟩).1 ≠ [] :=
  ((c3_remaining_gate [("Platinum", (50 : Rat))] [] "N"
      ⟨some "ProspectedAsteroid", some "T", some 100,
        some [⟨some "Platinum", some 55⟩], none, none⟩ rfl).1).mpr (by decide)

/-- C4 (amended): the EDAT.py material loop produces at most one
announcement per event, for the first qualifying material in list order
(early exit); the app.py loop has no early exit and announces every
qualifying material in list order. -/
theorem c4_announcement_policy :
    (∀ (targets : List (String × Rat)) (ts : String) (rem : Rat)
        (ml : Option String) (cl : String) (ms : List Material),
      (edatScan targets ts rem ml cl ms).1.length ≤ 1 ∧
      edatScan targets ts rem ml cl ms =
        (match ms.find? (edatQualB targets) with
         | none => ([], [])
         | some m => ([edatAnn m], [edatRec ts rem ml cl m]))) ∧
    (∀ (th : List (String × Rat)) (ts : String) (ms : List Material),
      (appProcessMaterials th ts ms).1 = (ms.filter (appQualB th)).map appAnn) := by
  constructor
  · intro targets ts rem ml cl ms
    have h := edatScan_eq_find targets ts rem ml cl ms
    refine ⟨?_, h⟩
    rw [h]
    cases ms.find? (edatQualB targets) <;> simp
  · intro th ts ms
    exact appPM_anns th ts ms

/-- C4 counterexample: an app.py mining event with two qualifying materials
produces two announcements, not at most one. -/
theorem c4_counterexample :
    (appProcessMaterials [("Platinum", (30 : Rat)), ("Gold", 30)] "T"
      [⟨some "Platinum", some 50⟩, ⟨some "Gold", some 60⟩]).1 =
      ["Platinum found at 50 percent", "Gold found at 60 percent"] ∧
    ¬((appProcessMaterials [("Platinum", (30 : Rat)), ("Gold", 30)] "T"
      [⟨some "Platinum", some 50⟩, ⟨some "Gold", some 60⟩]).1.length ≤ 1) := by
  constructor
  · rfl
  · decide

/-- C5 (amended): the app.py pipeline persists a record for every material
of the event with a nonempty name, regardless of thresholds; the EDAT.py
pipeline persists only the first qualifying material, and nothing when no
material qualifies or the remaining gate fails — persistence there is tied
to the announcement firing. -/
theorem c5_persistence_policy :
    (∀ (th : List (String × Rat)) (ts : String) (ms : List Material),
      (appProcessMaterials th ts ms).2 =
        (ms.filter (fun m => !(m.name.getD "" == ""))).map (appRec ts)) ∧
    (∀ (targets : List (String × Rat)) (ts : String) (rem : Rat)
        (ml : Option String) (cl : String) (ms : List Material),
      ms.find? (edatQualB targets) = none →
      (edatScan targets ts rem ml cl ms).2 = []) ∧
    (∀ (targets : List (String × Rat)) (now : String) (e : MiningEntry),
      e.remaining.getD 0 < 100 → (edatProcessAsteroid targets now e).2 = []) := by
  refine ⟨fun th ts ms => appPM_recs th ts ms, ?_, ?_⟩
  · intro targets ts rem ml cl ms hf
    rw [edatScan_eq_find, hf]
  · intro targets now e hr
    unfold edatProcessAsteroid
    by_cases he : e.event ≠ some "ProspectedAsteroid"
    · rw [if_pos he]
    · rw [if_neg he, if_pos hr]

/-- C5 witness: a prospected asteroid with 60 percent Platinum but
Remaining 80 persists no record in EDAT.py even though a material meets its
threshold. -/
theorem c5_persistence_policy_witness :
    (edatProcessAsteroid [("Platinum", (50 : Rat))] "N"
      ⟨some "ProspectedAsteroid", some "T", some 80,
        some [⟨some "Platinum", some 60⟩], none, none⟩).2 = [] :=
  c5_persistence_policy.2.2 [("Platinum", (50 : Rat))] "N"
    ⟨some "ProspectedAsteroid", some "T", some 80,
      some [⟨some "Platinum", some 60⟩], none, none⟩ (by decide)

/-- C5 counterexample: a classified MiningObservation (fully intact, one
material at 40 percent, threshold 50) triggers no announcement, and —
contrary to the claim — EDAT.py persists no record for it either. -/
theorem c5_counterexample :
    edatProcessAsteroid [("Platinum", (50 : Rat))] "N"
      ⟨some "ProspectedAsteroid", some "T", some 100,
        some [⟨some "Platinum", some 40⟩], none, none⟩ = ([], []) := by
  decide

/-- C6 (amended): in EDAT.py the announced value is the proportion rounded
to the nearest integer and the stored value keeps the original precision,
but only a qualifying material is displayed or stored at all; in app.py
(both parse paths, which are the same function) the value is truncated
toward zero and the stored value is that same truncated integer, so
original precision is lost. -/
theorem c6_value_precision :
    (∀ (targets : List (String × Rat)) (ts : String) (rem : Rat)
        (ml : Option String) (cl : String) (m : Material),
      edatQualB targets m = true →
      edatScan targets ts rem ml cl [m] =
        ([edatAnn m],
         [{ timestamp := ts, material := m.name.getD "",
            proportion := m.proportion.getD 0,
            motherlode := ml == some (m.name.getD ""), contentType := cl,
            remaining := rem }])) ∧
    (∀ (th : List (String × Rat)) (ts : String) (m : Material),
      appQualB th m = true →
      appProcessMaterials th ts [m] =
        ([appAnn m],
         [{ timestamp := ts, material := m.name.getD "",
            proportion := pyTrunc (m.proportion.getD 0) }])) ∧
    (∀ (th : List (String × Rat)) (ts : String) (ms : List Material),
      appProcessMaterials th ts ms = appProcessMaterialsFB th ts ms) := by
  refine ⟨?_, ?_, fun th ts ms => appPM_eq_FB th ts ms⟩
  · intro targets ts rem ml cl m hq
    rw [edatScan_eq_find, List.find?_cons_of_pos _ hq]
    rfl
  · intro th ts m hq
    unfold appQualB at hq
    rcases hand : (!(m.name.getD "" == "")) with _ | _
    · rw [hand] at hq; simp at hq
    · rw [hand, Bool.true_and] at hq
      have hn : ¬(m.name.getD "" = "") := by
        intro hx
        rw [hx] at hand
        simp at hand
      rcases h : dictGet th (m.name.getD "") with _ | thr
      · rw [h] at hq; simp at hq
      · rw [h] at hq
        simp only [decide_eq_true_eq] at hq
        simp [appProcessMaterials, hn, h, hq, appRec]

/-- C6 witness: at proportion 49.9 with threshold 30, app.py announces 49
(truncated) and stores 49. -/
theorem c6_value_precision_witness :
    appProcessMaterials [("Platinum", (30 : Rat))] "T"
      [⟨some "Platinum", some (mkRat 499 10)⟩] =
      (["Platinum found at 49 percent"],
       [{ timestamp := "T", material := "Platinum", proportion := 49 }]) :=
  (c6_value_precision.2.1 [("Platinum", (30 : Rat))] "T"
    ⟨some "Platinum", some (mkRat 499 10)⟩ (by decide)).trans (by decide)

/-- C6 counterexample: at the claim's own example input (proportion 49.9,
threshold 50), EDAT.py neither displays nor stores anything, and app.py
displays nothing and stores the truncated 49, not 49.9; with threshold 30
the app.py displayed value is 49, not the rounded 50. -/
theorem c6_counterexample :
    edatScan [("Platinum", (50 : Rat))] "T" 100 none "Unknown"
      [⟨some "Platinum", some (mkRat 499 10)⟩] = ([], []) ∧
    appProcessMaterials [("Platinum", (50 : Rat))] "T"
      [⟨some "Platinum", some (mkRat 499 10)⟩] =
      ([], [{ timestamp := "T", material := "Platinum", proportion := 49 }]) ∧
    (appProcessMaterials [("Platinum", (30 : Rat))] "T"
      [⟨some "Platinum", some (mkRat 499 10)⟩]).1 = ["Platinum found at 49 percent"] ∧
    pyRound (mkRat 499 10) = 50 ∧ ((49 : Rat) ≠ mkRat 499 10) ∧ ((49 : Int) ≠ 50) := by
  refine ⟨by decide, by decide, by decide, by decide, by decide, by decide⟩

/-- C7 (amended): in app.py the mining fallback runs the same material
processing as the strict path, so given the same recovered materials and
timestamp it produces the same announcements and records; the chat fallback
reproduces the strict path only for the squadron channel (npc and player
are left unimplemented in the fallback).  EDAT.py has no fallback at all:
lines failing the strict decode are dropped. -/
theorem c7_fallback_equivalence :
    (∀ (th : List (String × Rat)) (ts : String) (ms : List Material),
      appProcessMaterialsFB th ts ms = appProcessMaterials th ts ms) ∧
    (∀ (th : List (String × Rat)) (now : String) (e : MiningEntry)
        (ms : List Material) (ts : String),
      e.event = some "ProspectedAsteroid" → e.materials = some ms → ms ≠ [] →
      e.timestamp = some ts →
      appFallbackEntry th ts ms = appStrictEntry th now e) ∧
    (∀ (s m c : String), pyLower c = "squadron" →
      appMessageFallback s m c =
        appMessageStrict { event := some "ReceiveText", fromName := some s,
                           message := some m, channel := some c }) := by
  refine ⟨fun th ts ms => (appPM_eq_FB th ts ms).symm, ?_, ?_⟩
  · intro th now e ms ts he hm hne hts
    unfold appStrictEntry appFallbackEntry
    rw [he, if_neg (by simp), hm, hts]
    simp only [Option.getD_some]
    rw [if_neg (by simpa [List.isEmpty_iff] using hne)]
    rw [appPM_eq_FB]
  · intro s m c hc
    unfold appMessageFallback appMessageStrict
    simp only [Option.getD_some, hc]
    rfl

/-- C7 witness: a squadron-channel chat line recovered by the fallback
captures produces exactly what the strict decode would have produced. -/
theorem c7_fallback_equivalence_witness :
    appMessageFallback "Ann" "form up" "Squadron" =
      appMessageStrict ⟨some "ReceiveText", some "Ann", some "form up",
        some "Squadron"⟩ :=
  c7_fallback_equivalence.2.2 "Ann" "form up" "Squadron" (by decide)

/-- C7 counterexample: for an npc-channel chat with the same From, Message
and Channel fragments, the strict path announces a pirate alert but the
fallback path announces nothing and returns False, so the fallback does not
synthesize the same result as the strict path. -/
theorem c7_counterexample :
    appMessageStrict ⟨some "ReceiveText", some "Bob", some "hand over the cargo",
      some "npc"⟩ = (["NPC PIRATE MESSAGE: hand over the cargo"], true) ∧
    appMessageFallback "Bob" "hand over the cargo" "npc" = ([], false) := by
  constructor
  · rfl
  · rfl

/-- C10: a line that does not contain the exact discriminator substring
(with no whitespace around the colon) is rejected by the corresponding
handler before any parsing: no announcement, no record, return False. -/
theorem c10_exact_discriminator :
    (∀ (th : List (String × Rat)) (now : String) (line : List Char)
        (parsed : Option MiningEntry) (fb : Option (List Material × Option String)),
      containsTok minePat line = false →
      appHandleMining th now line parsed fb = ([], [], false)) ∧
    (∀ (line : List Char) (parsed : Option ChatEntry)
        (fb : Option (String × String × String)),
      containsTok textPat line = false →
      appHandleMessage line parsed fb = ([], false)) := by
  constructor
  · intro th now line parsed fb h
    unfold appHandleMining
    rw [h]
    rfl
  · intro line parsed fb h
    unfold appHandleMessage
    rw [h]
    rfl

/-- C10 witness: a line formatting the discriminator with a space after the
colon contains the spaced form but not the exact substring, so the mining
handler ignores it entirely (even with a well-formed parse available), and
likewise for the chat handler. -/
theorem c10_exact_discriminator_witness :
    containsTok "\"event\": \"ProspectedAsteroid\"".toList
      "\x7b\"event\": \"ProspectedAsteroid\", \"Materials\":[], \"timestamp\":\"T\"\x7d".toList
      = true ∧
    containsTok minePat
      "\x7b\"event\": \"ProspectedAsteroid\", \"Materials\":[], \"timestamp\":\"T\"\x7d".toList
      = false ∧
    appHandleMining [("Platinum", (30 : Rat))] "N"
      "\x7b\"event\": \"ProspectedAsteroid\", \"Materials\":[], \"timestamp\":\"T\"\x7d".toList
      (some ⟨some "ProspectedAsteroid", some "T", some 100,
        some [⟨some "Platinum", some 55⟩], none, none⟩) none = ([], [], false) ∧
    containsTok textPat
      "\x7b\"event\": \"ReceiveText\", \"From\":\"Bob\", \"Message\":\"hi\", \"Channel\":\"player\"\x7d".toList
      = false ∧
    appHandleMessage
      "\x7b\"event\": \"ReceiveText\", \"From\":\"Bob\", \"Message\":\"hi\", \"Channel\":\"player\"\x7d".toList
      (some ⟨some "ReceiveText", some "Bob", some "hi", some "player"⟩) none
      = ([], false) :=
  ⟨by decide, by decide,
   c10_exact_discriminator.1 [("Platinum", (30 : Rat))] "N" _
     (some ⟨some "ProspectedAsteroid", some "T", some 100,
       some [⟨some "Platinum", some 55⟩], none, none⟩) none (by decide),
   by decide,
   c10_exact_discriminator.2 _
     (some ⟨some "ReceiveText", some "Bob", some "hi", some "player"⟩) none
     (by decide)⟩

/-- FIFO invariant of the app.py queue-and-worker model: from any state,
what has been spoken followed by what is still queued equals the prior
backlog followed by everything enqueued along the trace. -/
theorem qRun_invariant :
    ∀ (tr : List QEvent) (s : QState),
      (qRun s tr).spoken ++ (qRun s tr).queue =
        s.spoken ++ s.queue ++ enqueuedOf tr
  | [], s => by simp [qRun, enqueuedOf]
  | QEvent.enq t :: tr, s => by
    have ih := qRun_invariant tr { queue := s.queue ++ [t], spoken := s.spoken }
    have hstep : qRun s (QEvent.enq t :: tr) =
        qRun { queue := s.queue ++ [t], spoken := s.spoken } tr := rfl
    rw [hstep, ih]
    simp [enqueuedOf, List.append_assoc]
  | QEvent.deq :: tr, s => by
    rcases hq : s.queue with _ | ⟨t, rest⟩
    · have hstep : qRun s (QEvent.deq :: tr) = qRun s tr := by
        show qRun (qStep s QEvent.deq) tr = qRun s tr
        rw [qStep, hq]
      rw [hstep, qRun_invariant tr s, hq]
      simp [enqueuedOf]
    · have hstep : qRun s (QEvent.deq :: tr) =
          qRun { queue := rest, spoken := s.spoken ++ [t] } tr := by
        show qRun (qStep s QEvent.deq) tr = _
        rw [qStep, hq]
      rw [hstep, qRun_invariant tr { queue := rest, spoken := s.spoken ++ [t] }]
      simp [hq, enqueuedOf, List.append_assoc]

/-- C8 (amended): in the app.py variant (shared FIFO list plus a single
worker), under every interleaving of producer and consumer steps the texts
are handed to the speech collaborator in exactly the order they were
enqueued: the spoken sequence plus the residual queue is the enqueue
sequence, and in particular the spoken sequence is always a prefix of it.
The EDAT.py variant spawns an independent thread per announcement and has
no such guarantee (see the counterexample). -/
theorem c8_fifo_order :
    (∀ tr : List QEvent,
      (qRun ⟨[], []⟩ tr).spoken ++ (qRun ⟨[], []⟩ tr).queue = enqueuedOf tr) ∧
    (∀ tr : List QEvent, (qRun ⟨[], []⟩ tr).spoken <+: enqueuedOf tr) := by
  have h : ∀ tr : List QEvent,
      (qRun ⟨[], []⟩ tr).spoken ++ (qRun ⟨[], []⟩ tr).queue = enqueuedOf tr := by
    intro tr
    have := qRun_invariant tr ⟨[], []⟩
    simpa using this
  exact ⟨h, fun tr => ⟨(qRun ⟨[], []⟩ tr).queue, h tr⟩⟩

/-- C8 counterexample: in the EDAT.py thread-per-announcement model, the
schedule that runs the second spawned thread before the first delivers the
announcements in the order b, a although they were produced in the order
a, b — so delivery order is not the enqueue order under every interleaving. -/
theorem c8_counterexample :
    (tRun ⟨[], []⟩ [TEvent.spawn "a", TEvent.spawn "b", TEvent.run 1,
      TEvent.run 0]).spoken = ["b", "a"] ∧
    spawnedOf [TEvent.spawn "a", TEvent.spawn "b", TEvent.run 1, TEvent.run 0] =
      ["a", "b"] ∧
    (["b", "a"] : List String) ≠ ["a", "b"] := by
  refine ⟨rfl, rfl, by decide⟩

/-- C9: the app.py line filter drops a line equal to the remembered last
emitted line; the filter state threads through concatenated line lists and
across separate read calls, so the suppression also applies across calls;
and a line repeated twice in a row is emitted exactly once. -/
theorem c9_duplicate_suppression :
    (∀ (st : Option (List Char)) (s : List Char),
      pyStrip s ≠ [] → some (pyStrip s) = st → appFilterStep st s = (none, st)) ∧
    (∀ (st : Option (List Char)) (ls1 ls2 : List (List Char)),
      appRunLines st (ls1 ++ ls2) =
        ((appRunLines st ls1).1 ++ (appRunLines (appRunLines st ls1).2 ls2).1,
         (appRunLines (appRunLines st ls1).2 ls2).2)) ∧
    (∀ (st : Option (List Char)) (cs1 cs2 : List (List Char)),
      appReadAll st (cs1 ++ cs2) =
        ((appReadAll st cs1).1 ++ (appReadAll (appReadAll st cs1).2 cs2).1,
         (appReadAll (appReadAll st cs1).2 cs2).2)) ∧
    (∀ (st : Option (List Char)) (s : List Char),
      pyStrip s ≠ [] → some (pyStrip s) ≠ st →
      (appRunLines st [s, s]).1 = [pyStrip s]) := by
  refine ⟨?_, ?_, ?_, ?_⟩
  · intro st s h1 h2
    unfold appFilterStep
    rw [if_neg h1, if_pos h2]
  · intro st ls1 ls2
    induction ls1 generalizing st with
    | nil => simp [appRunLines]
    | cons r rs ih => simp [appRunLines, ih, List.append_assoc]
  · intro st cs1 cs2
    induction cs1 generalizing st with
    | nil => simp [appReadAll]
    | cons c cs ih => simp [appReadAll, ih, List.append_assoc]
  · intro st s h1 h2
    simp [appRunLines, appFilterStep, h1, h2]

/-- C9 witness: with remembered last line x, the line x is dropped; a fresh
line repeated twice is emitted once. -/
theorem c9_duplicate_suppression_witness :
    appFilterStep (some ['x']) ['x'] = (none, some ['x']) ∧
    (appRunLines none [['x'], ['x']]).1 = [['x']] :=
  ⟨c9_duplicate_suppression.1 (some ['x']) ['x'] (by decide) (by decide),
   (c9_duplicate_suppression.2.2.2 none ['x'] (by decide) (by decide)).trans
     (by decide)⟩

/-! Lemmas about the reference newline splitter and the EDAT.py assembler,
leading to the split-invariance theorem. -/

/-- Shape of pySplitlines on a leading newline. -/
theorem pySplitlines_cons_nl (cs : List Char) :
    pySplitlines ('\n' :: cs) = [] :: pySplitlines cs := rfl

/-- Shape of pySplitlines on a leading ordinary character. -/
theorem pySplitlines_cons_ne (c : Char) (cs : List Char) (h1 : c ≠ '\r')
    (h2 : c ≠ '\n') :
    pySplitlines (c :: cs) =
      (match pySplitlines cs with | [] => [[c]] | l :: ls => (c :: l) :: ls) := by
  rw [pySplitlines.eq_def]
  split
  · simp_all
  · simp_all
  · simp_all
  · simp_all
  · rename_i heq
    injection heq with hc hcs
    subst hc
    subst hcs
    rfl

/-- Shape of nlSplit on a leading newline. -/
theorem nlSplit_cons_nl (cs : List Char) :
    nlSplit ('\n' :: cs) = ([] :: (nlSplit cs).1, (nlSplit cs).2) := by
  conv_lhs => unfold nlSplit
  rw [if_pos rfl]

/-- Shape of nlSplit on a leading ordinary character. -/
theorem nlSplit_cons_ne (c : Char) (cs : List Char) (hc : c ≠ '\n') :
    nlSplit (c :: cs) =
      (match nlSplit cs with
       | ([], f) => ([], c :: f)
       | (l :: ls, f) => ((c :: l) :: ls, f)) := by
  conv_lhs => unfold nlSplit
  rw [if_neg hc]

/-- Only the empty text splits into no lines and no fragment. -/
theorem nlSplit_eq_nil_imp : ∀ cs : List Char, nlSplit cs = ([], []) → cs = []
  | [], _ => rfl
  | c :: cs, h => by
    by_cases hc : c = '\n'
    · subst hc
      rw [nlSplit_cons_nl] at h
      simp at h
    · rw [nlSplit_cons_ne c cs hc] at h
      rcases hr : nlSplit cs with ⟨_ | ⟨l, ls⟩, f⟩ <;> rw [hr] at h <;> simp at h

/-- The fragment left by nlSplit never contains a newline. -/
theorem nlSplit_frag_no_nl : ∀ cs : List Char, '\n' ∉ (nlSplit cs).2
  | [] => by simp [nlSplit]
  | c :: cs => by
    have ih := nlSplit_frag_no_nl cs
    by_cases hc : c = '\n'
    · subst hc
      rw [nlSplit_cons_nl]
      exact ih
    · rw [nlSplit_cons_ne c cs hc]
      rcases hr : nlSplit cs with ⟨_ | ⟨l, ls⟩, f⟩ <;> rw [hr] at ih <;> simp_all
      exact fun hx => hc hx.symm

/-- Every character of the fragment comes from the split text. -/
theorem nlSplit_frag_mem : ∀ (cs : List Char) (a : Char),
    a ∈ (nlSplit cs).2 → a ∈ cs
  | [], a => by simp [nlSplit]
  | c :: cs, a => by
    have ih := nlSplit_frag_mem cs a
    by_cases hc : c = '\n'
    · subst hc
      rw [nlSplit_cons_nl]
      intro h
      exact List.mem_cons_of_mem _ (ih h)
    · rw [nlSplit_cons_ne c cs hc]
      rcases hr : nlSplit cs with ⟨_ | ⟨l, ls⟩, f⟩ <;> rw [hr] at ih <;>
        simp only [] <;> intro h
      · rcases List.mem_cons.mp h with h | h
        · exact h ▸ List.mem_cons_self c cs
        · exact List.mem_cons_of_mem _ (ih h)
      · exact List.mem_cons_of_mem _ (ih h)

/-- A newline-free text is all fragment. -/
theorem nlSplit_no_nl : ∀ f : List Char, '\n' ∉ f → nlSplit f = ([], f)
  | [], _ => rfl
  | c :: f, h => by
    have hc : c ≠ '\n' := fun hx => h (hx ▸ List.mem_cons_self c f)
    rw [nlSplit_cons_ne c f hc, nlSplit_no_nl f (fun hx => h (List.mem_cons_of_mem _ hx))]

/-- Splitting a concatenation: the lines of x come out first, and the rest
is the split of the fragment of x glued onto y.  This is the key state
composition property behind absorbing a text chunk by chunk. -/
theorem nlSplit_append : ∀ x y : List Char,
    nlSplit (x ++ y) =
      ((nlSplit x).1 ++ (nlSplit ((nlSplit x).2 ++ y)).1,
       (nlSplit ((nlSplit x).2 ++ y)).2)
  | [], y => by simp [nlSplit]
  | c :: x, y => by
    have ih := nlSplit_append x y
    by_cases hc : c = '\n'
    · subst hc
      rw [List.cons_append, nlSplit_cons_nl, nlSplit_cons_nl, ih]
      simp
    · rw [List.cons_append, nlSplit_cons_ne c (x ++ y) hc, nlSplit_cons_ne c x hc, ih]
      rcases h1 : nlSplit x with ⟨_ | ⟨l, ls⟩, f1⟩
      · simp only [List.nil_append, List.cons_append]
        rw [nlSplit_cons_ne c (f1 ++ y) hc]
      · simp [List.cons_append]

/-- Splitting with a newline-free text glued on the left: it extends the
first line (or the fragment when there is no complete line). -/
theorem nlSplit_no_nl_append : ∀ (f y : List Char), '\n' ∉ f →
    nlSplit (f ++ y) =
      (match nlSplit y with
       | ([], g) => ([], f ++ g)
       | (l :: ls, g) => ((f ++ l) :: ls, g))
  | [], y, _ => by
    rcases h : nlSplit y with ⟨_ | ⟨l, ls⟩, g⟩ <;> simp [h]
  | c :: f, y, h => by
    have hc : c ≠ '\n' := fun hx => h (hx ▸ List.mem_cons_self c f)
    have ih := nlSplit_no_nl_append f y (fun hx => h (List.mem_cons_of_mem _ hx))
    rw [List.cons_append, nlSplit_cons_ne c (f ++ y) hc, ih]
    rcases hy : nlSplit y with ⟨_ | ⟨l, ls⟩, g⟩ <;> simp

/-- On carriage-return-free text, pySplitlines produces exactly the complete
lines of nlSplit followed by the trailing fragment when it is nonempty. -/
theorem pySplitlines_eq_nlSplit : ∀ cs : List Char, '\r' ∉ cs →
    pySplitlines cs =
      (nlSplit cs).1 ++ (if (nlSplit cs).2 = [] then [] else [(nlSplit cs).2])
  | [], _ => rfl
  | c :: cs, h => by
    have hr : c ≠ '\r' := fun hx => h (hx ▸ List.mem_cons_self c cs)
    have ih := pySplitlines_eq_nlSplit cs (fun hx => h (List.mem_cons_of_mem _ hx))
    by_cases hc : c = '\n'
    · subst hc
      rw [pySplitlines_cons_nl, nlSplit_cons_nl, ih]
      simp
    · rw [pySplitlines_cons_ne c cs hr hc, nlSplit_cons_ne c cs hc, ih]
      rcases hs : nlSplit cs with ⟨_ | ⟨l, ls⟩, f⟩
      · by_cases hf : f = [] <;> simp [hf]
      · by_cases hf : f = [] <;> simp [hf]

/-- For a nonempty text, the fragment is empty exactly when the text ends
with a newline. -/
theorem nlSplit_frag_empty_iff : ∀ cs : List Char, cs ≠ [] →
    ((nlSplit cs).2 = [] ↔ cs.getLast? = some '\n')
  | [], h => absurd rfl h
  | c :: cs, _ => by
    rcases hcs : cs with _ | ⟨c2, cs2⟩
    · by_cases hc : c = '\n'
      · subst hc
        simp [nlSplit]
      · rw [nlSplit_cons_ne c [] hc]
        simp only [nlSplit, List.getLast?_singleton]
        constructor
        · intro h; simp at h
        · intro h
          exact absurd (Option.some.inj h) hc
    · have ih := nlSplit_frag_empty_iff (c2 :: cs2) (List.cons_ne_nil c2 cs2)
      have hlast : (c :: c2 :: cs2).getLast? = (c2 :: cs2).getLast? := by
        simp [List.getLast?_cons_cons]
      by_cases hc : c = '\n'
      · subst hc
        rw [nlSplit_cons_nl, hlast]
        exact ih
      · rw [nlSplit_cons_ne c (c2 :: cs2) hc, hlast]
        rcases hs : nlSplit (c2 :: cs2) with ⟨_ | ⟨l, ls⟩, f⟩ <;> rw [hs] at ih
        · simp only [] at ih ⊢
          constructor
          · intro h; simp at h
          · intro h
            have hf : f = [] := ih.mpr h
            subst hf
            have := nlSplit_eq_nil_imp (c2 :: cs2) hs
            simp at this
        · simpa using ih

/-- Bridge: one EDAT.py read with buffered fragment f and carriage-return
free new content c behaves exactly like splitting f ++ c into complete
lines and a trailing fragment. -/
theorem edatAbsorb_eq_nlSplit (f c : List Char) (hf : '\n' ∉ f) (hc : '\r' ∉ c) :
    edatAbsorb f c = nlSplit (f ++ c) := by
  by_cases hne : c = []
  · subst hne
    simp [edatAbsorb, pySplitlines, nlSplit_no_nl f hf]
  · unfold edatAbsorb
    rw [pySplitlines_eq_nlSplit c hc, nlSplit_no_nl_append f c hf]
    rcases hs : nlSplit c with ⟨ls0, g⟩
    by_cases hg : g = []
    · subst hg
      have hlast : c.getLast? = some '\n' :=
        (nlSplit_frag_empty_iff c hne).mp (by rw [hs])
      rcases ls0 with _ | ⟨l, ls⟩
      · exact absurd (nlSplit_eq_nil_imp c hs) hne
      · simp [hlast]
    · have hlast : ¬(c.getLast? = some '\n') := by
        intro hx
        have hfe := (nlSplit_frag_empty_iff c hne).mpr hx
        rw [hs] at hfe
        exact hg hfe
      rcases ls0 with _ | ⟨l, ls⟩
      · simp [hg, hlast]
      · simp only [if_neg hg, List.cons_append]
        have hd : ((f ++ l) :: (ls ++ [g])).dropLast = (f ++ l) :: ls := by
          rw [show (f ++ l) :: (ls ++ [g]) = ((f ++ l) :: ls) ++ [g] from rfl,
            List.dropLast_concat]
        have hg2 : ((f ++ l) :: (ls ++ [g])).getLast? = some g := by
          rw [show (f ++ l) :: (ls ++ [g]) = ((f ++ l) :: ls) ++ [g] from rfl,
            List.getLast?_concat]
        simp [hlast, hd, hg2]

/-- A sequence of EDAT.py reads starting from a newline-free fragment
buffer is, as a whole, the split of the buffer glued to the concatenation
of all chunks. -/
theorem edatAbsorbAll_spec : ∀ (cs : List (List Char)) (f : List Char),
    '\n' ∉ f → '\r' ∉ f → '\r' ∉ catChunks cs →
    edatAbsorbAll f cs = nlSplit (f ++ catChunks cs)
  | [], f, hn, _, _ => by
    simp [edatAbsorbAll, catChunks, nlSplit_no_nl f hn]
  | c :: cs, f, hn, hrf, hrc => by
    have hcat : catChunks (c :: cs) = c ++ catChunks cs := rfl
    have hrc1 : '\r' ∉ c := fun hx => hrc (by
      rw [hcat]
      exact List.mem_append.mpr (Or.inl hx))
    have hrcs : '\r' ∉ catChunks cs := fun hx => hrc (by
      rw [hcat]
      exact List.mem_append.mpr (Or.inr hx))
    have hb := edatAbsorb_eq_nlSplit f c hn hrc1
    have hn1 : '\n' ∉ (nlSplit (f ++ c)).2 := nlSplit_frag_no_nl (f ++ c)
    have hr1 : '\r' ∉ (nlSplit (f ++ c)).2 := by
      intro hx
      rcases List.mem_append.mp (nlSplit_frag_mem (f ++ c) '\r' hx) with h | h
      · exact hrf h
      · exact hrc1 h
    have ih := edatAbsorbAll_spec cs (nlSplit (f ++ c)).2 hn1 hr1 hrcs
    have hassoc : f ++ catChunks (c :: cs) = (f ++ c) ++ catChunks cs := by
      rw [hcat, List.append_assoc]
    simp only [edatAbsorbAll]
    rw [hb, ih, hassoc, nlSplit_append (f ++ c) (catChunks cs)]

/-- Splitting a newline-joined list of newline-free lines recovers exactly
those lines with an empty fragment. -/
theorem nlSplit_joinNl : ∀ L : List (List Char), (∀ l ∈ L, '\n' ∉ l) →
    nlSplit (joinNl L) = (L, [])
  | [], _ => rfl
  | l :: L, h => by
    have hl : '\n' ∉ l := h l (List.mem_cons_self l L)
    have ih := nlSplit_joinNl L (fun x hx => h x (List.mem_cons_of_mem _ hx))
    have hjoin : joinNl (l :: L) = l ++ '\n' :: joinNl L := rfl
    rw [hjoin, nlSplit_no_nl_append l ('\n' :: joinNl L) hl, nlSplit_cons_nl, ih]
    simp

/-- A newline-joined list of carriage-return free lines is carriage-return
free. -/
theorem joinNl_no_cr : ∀ L : List (List Char), (∀ l ∈ L, '\r' ∉ l) →
    '\r' ∉ joinNl L
  | [], _ => by simp [joinNl]
  | l :: L, h => by
    have ih := joinNl_no_cr L (fun x hx => h x (List.mem_cons_of_mem _ hx))
    have hjoin : joinNl (l :: L) = l ++ '\n' :: joinNl L := rfl
    rw [hjoin]
    intro hx
    rcases List.mem_append.mp hx with hx | hx
    · exact h l (List.mem_cons_self l L) hx
    · rcases List.mem_cons.mp hx with hx | hx
      · exact absurd hx (by decide)
      · exact ih hx

/-- C2 (amended): split-invariance holds for the EDAT.py assembler: for any
complete text made of newline-terminated lines (no carriage returns in the
lines), absorbing any chunking of it in sequence emits exactly the original
lines, leaves an empty fragment buffer, and re-terminating the emitted
lines reproduces the text.  The app.py reader does not buffer unterminated
trailing segments, so the property fails there (see the counterexample). -/
theorem c2_split_invariance (L chunks : List (List Char))
    (hL : ∀ l ∈ L, '\n' ∉ l ∧ '\r' ∉ l)
    (hc : catChunks chunks = joinNl L) :
    edatAbsorbAll [] chunks = (L, []) ∧
    joinNl (edatAbsorbAll [] chunks).1 = catChunks chunks := by
  have hcr : '\r' ∉ catChunks chunks := by
    rw [hc]
    exact joinNl_no_cr L (fun l hl => (hL l hl).2)
  have h1 : edatAbsorbAll [] chunks = nlSplit ([] ++ catChunks chunks) :=
    edatAbsorbAll_spec chunks [] (by simp) (by simp) hcr
  rw [List.nil_append] at h1
  have h2 : edatAbsorbAll [] chunks = (L, []) := by
    rw [h1, hc]
    exact nlSplit_joinNl L (fun l hl => (hL l hl).1)
  exact ⟨h2, by rw [h2, hc]⟩

/-- C2 witness: the text with lines a and bc, chunked as a-newline-b plus
c-newline, is reassembled into exactly those lines. -/
theorem c2_split_invariance_witness :
    edatAbsorbAll [] [['a', '\n', 'b'], ['c', '\n']] = ([['a'], ['b', 'c']], []) :=
  (c2_split_invariance [['a'], ['b', 'c']] [['a', '\n', 'b'], ['c', '\n']]
    (by decide) (by decide)).1

/-- C2 counterexample: the complete text abcd-newline chunked as ab and
cd-newline across two app.py reads is emitted as the two lines ab and cd —
the unterminated trailing segment ab is emitted immediately rather than
buffered — and re-adding terminators gives ab-newline-cd-newline, which is
not the original text. -/
theorem c2_counterexample :
    (appReadAll none [['a', 'b'], ['c', 'd', '\n']]).1 = [['a', 'b'], ['c', 'd']] ∧
    catChunks [['a', 'b'], ['c', 'd', '\n']] = ['a', 'b', 'c', 'd', '\n'] ∧
    joinNl [['a', 'b'], ['c', 'd']] ≠ ['a', 'b', 'c', 'd', '\n'] := by
  refine ⟨by decide, by decide, by decide⟩

end EDACC
